import Mathlib

/-!
Shallow embedding of the TSP grading harness:
`tools/tester.py` (PerformanceTestCase: get_path_cost, is_hamiltonian_cycle,
compute_score, run) and `tools/generate_data.py` (gen_best_solution,
gen_complete_random_graph, gen_geometric_graph, gen_dataset staging-file
naming).

Modelling choices:
- IEEE-754 double values are modelled by `EFloat`: NaN, +infinity, -infinity,
  or a finite value carried as a rational (rounding is not modelled; signed
  zero is collapsed to `fin 0`).  The arithmetic (`add`, `mul`, `div`, `lt`)
  follows numpy float64 semantics on these classes; numpy division by zero
  yields ±infinity / NaN (with a warning), not an exception.
- numpy fancy indexing `adjacency_matrix[i, j]` with Python integers follows
  Python negative-index semantics and raises `IndexError` out of range; it is
  modelled by `pyGet` / `matGet` returning `Option`.  A raised exception is
  `none` / `Except.error`.
- `np.asarray(...).squeeze()` is the identity on the n x n matrices
  (n >= 2) the harness operates on and is modelled as the identity.
-/

namespace TSPSpec

/-- An IEEE double classified as NaN, +inf, -inf, or a finite rational. -/
inductive EFloat where
  | nan : EFloat
  | inf : EFloat
  | ninf : EFloat
  | fin : ℚ → EFloat
deriving DecidableEq, Repr

namespace EFloat

/-- `np.isnan`. -/
def isNan : EFloat → Bool
  | nan => true
  | _ => false

/-- `np.isinf` (true for both infinities). -/
def isInf : EFloat → Bool
  | inf => true
  | ninf => true
  | _ => false

/-- `np.isfinite`. -/
def isFinite : EFloat → Bool
  | fin _ => true
  | _ => false

/-- IEEE addition on the modelled classes. -/
def add : EFloat → EFloat → EFloat
  | nan, _ => nan
  | _, nan => nan
  | inf, ninf => nan
  | ninf, inf => nan
  | inf, _ => inf
  | _, inf => inf
  | ninf, _ => ninf
  | _, ninf => ninf
  | fin a, fin b => fin (a + b)

/-- IEEE multiplication on the modelled classes (`inf * 0 = nan`). -/
def mul : EFloat → EFloat → EFloat
  | nan, _ => nan
  | _, nan => nan
  | inf, inf => inf
  | inf, ninf => ninf
  | ninf, inf => ninf
  | ninf, ninf => inf
  | inf, fin b => if b = 0 then nan else if 0 < b then inf else ninf
  | fin a, inf => if a = 0 then nan else if 0 < a then inf else ninf
  | ninf, fin b => if b = 0 then nan else if 0 < b then ninf else inf
  | fin a, ninf => if a = 0 then nan else if 0 < a then ninf else inf
  | fin a, fin b => fin (a * b)

/-- IEEE division on the modelled classes; division by (unsigned) zero gives
`+inf` / `-inf` / `nan` as numpy float64 does (with a runtime warning, not an
exception). -/
def div : EFloat → EFloat → EFloat
  | nan, _ => nan
  | _, nan => nan
  | inf, inf => nan
  | inf, ninf => nan
  | ninf, inf => nan
  | ninf, ninf => nan
  | inf, fin b => if b < 0 then ninf else inf
  | ninf, fin b => if b < 0 then inf else ninf
  | fin _, inf => fin 0
  | fin _, ninf => fin 0
  | fin a, fin b =>
      if b = 0 then (if a = 0 then nan else if 0 < a then inf else ninf)
      else fin (a / b)

/-- IEEE `<` (false whenever either side is NaN). -/
def lt : EFloat → EFloat → Bool
  | nan, _ => false
  | _, nan => false
  | inf, _ => false
  | ninf, ninf => false
  | ninf, _ => true
  | fin _, inf => true
  | fin _, ninf => false
  | fin a, fin b => decide (a < b)

/-- `np.nan_to_num(x, nan=1.0, posinf=0.0, neginf=0.0)` as used by
`compute_score`. -/
def nanToNum : EFloat → EFloat
  | nan => fin 1
  | inf => fin 0
  | ninf => fin 0
  | fin a => fin a

end EFloat

/-- An adjacency matrix: a list of rows of `EFloat` weights. -/
abbrev Matrix := List (List EFloat)

/-- Python sequence indexing `l[i]` with an arbitrary integer index:
non-negative indices count from the front, indices in `[-len, -1]` wrap
around, everything else raises `IndexError` (modelled as `none`). -/
def pyGet {α : Type} (l : List α) (i : ℤ) : Option α :=
  if 0 ≤ i then l.get? i.toNat
  else if -(l.length : ℤ) ≤ i then l.get? ((l.length : ℤ) + i).toNat
  else none

/-- `adjacency_matrix[i, j]`: row lookup then column lookup, each with
Python indexing semantics. -/
def matGet (W : Matrix) (i j : ℤ) : Option EFloat :=
  (pyGet W i).bind fun row => pyGet row j

/-- The consecutive pairs `(path[idx], path[idx+1])` traversed by the loops
`for idx, i in enumerate(path[:-1])` in `get_path_cost` and
`is_hamiltonian_cycle`. -/
def pairsOf (path : List ℤ) : List (ℤ × ℤ) :=
  path.zip path.tail

/-- All weights looked up along a pair list, `none` if any lookup raises. -/
def traversedWeights (W : Matrix) : List (ℤ × ℤ) → Option (List EFloat)
  | [] => some []
  | (i, j) :: rest =>
      match matGet W i j, traversedWeights W rest with
      | some w, some ws => some (w :: ws)
      | _, _ => none

/-- The accumulation loop of `get_path_cost`: look up each traversed weight,
return `+inf` as soon as a NaN weight is seen, otherwise add the weight to
the running cost.  `none` models a raised `IndexError`. -/
def costAux (W : Matrix) : List (ℤ × ℤ) → EFloat → Option EFloat
  | [], acc => some acc
  | (i, j) :: rest, acc =>
      match matGet W i j with
      | none => none
      | some w => if w.isNan then some EFloat.inf else costAux W rest (acc.add w)

/-- `PerformanceTestCase.get_path_cost` (the running cost starts at the
Python int `0`). -/
def get_path_cost (W : Matrix) (path : List ℤ) : Option EFloat :=
  costAux W (pairsOf path) (EFloat.fin 0)

/-- The edge-weight loop of `is_hamiltonian_cycle`: return `False` at the
first traversed weight with `isnan or isinf or not isfinite`. -/
def checkEdges (W : Matrix) : List (ℤ × ℤ) → Option Bool
  | [] => some true
  | (i, j) :: rest =>
      match matGet W i j with
      | none => none
      | some w =>
          if w.isNan || w.isInf || !w.isFinite then some false
          else checkEdges W rest

/-- `PerformanceTestCase.is_hamiltonian_cycle`: length check, closure check,
distinct-count check (`set(path[:-1])`), then the edge-weight loop.
`W.length` is `adjacency_matrix.shape[0]` and `path.dropLast.dedup.length`
is `len(set(path[:-1]))`. -/
def is_hamiltonian_cycle (W : Matrix) (path : List ℤ) : Option Bool :=
  if path.length ≠ W.length + 1 then some false
  else if path.head? ≠ path.getLast? then some false
  else if path.dropLast.dedup.length ≠ W.length then some false
  else checkEdges W (pairsOf path)

/-- `PerformanceTestCase.compute_score`: `0.0` for a non-Hamiltonian
candidate, otherwise `nan_to_num(target_cost / obj_cost)` with
`nan=1.0, posinf=0.0, neginf=0.0`. -/
def compute_score (W : Matrix) (solution target : List ℤ) : Option EFloat :=
  match is_hamiltonian_cycle W solution with
  | none => none
  | some false => some (EFloat.fin 0)
  | some true =>
      match get_path_cost W solution with
      | none => none
      | some objCost =>
          match get_path_cost W target with
          | none => none
          | some targetCost => some (EFloat.nanToNum (targetCost.div objCost))

/-- The `(name, percent_value, message)` triple of `TestResult`. -/
structure TestResult where
  name : String
  percent_value : EFloat
  message : String
deriving DecidableEq, Repr

/-- `np.mean(scores)`: sum divided by length; for an empty list this is
`0/0 = NaN`, as numpy returns. -/
def npMean (scores : List EFloat) : EFloat :=
  (scores.foldl EFloat.add (EFloat.fin 0)).div (EFloat.fin scores.length)

/-- The warning string `compute_score` adds to `self._warnings` for a
non-Hamiltonian solution. -/
def hamWarning : String := "The solution is not a Hamiltonian cycle."

/-- Message prefix of the `TestResult` returned when the candidate's
constructor raises. -/
def instantiationErrorMsg : String := "Error raised during instantiation: "

/-- Message prefix of the `TestResult` returned when the candidate's solve
method raises. -/
def testErrorMsg : String := "Error raised during test: "

/-- The per-record loop of `PerformanceTestCase.run`.  A candidate under
test is modelled by `construct` (the class constructor applied to the
record's adjacency matrix, `Except.error` = raised exception) and `solve`
(the zero-argument solution method on the constructed object).  `scores`
and `warned` carry the accumulated score list and whether `_warnings` is
non-empty (the only warning `compute_score` can add is `hamWarning`).  A
`none` result models an exception escaping `run` itself (an `IndexError`
raised inside `compute_score` is outside both `try` blocks). -/
def runAux {σ : Type} (name : String) (construct : Matrix → Except String σ)
    (solve : σ → Except String (List ℤ)) :
    List (Matrix × List ℤ) → List EFloat → Bool → Option TestResult
  | [], scores, warned =>
      some ⟨name, npMean scores,
        if warned then "Warnings: " ++ hamWarning else ""⟩
  | (input, target) :: rest, scores, warned =>
      match construct input with
      | Except.error e => some ⟨name, EFloat.fin 0, instantiationErrorMsg ++ e⟩
      | Except.ok s =>
          match solve s with
          | Except.error e => some ⟨name, EFloat.fin 0, testErrorMsg ++ e⟩
          | Except.ok solution =>
              match compute_score input solution target with
              | none => none
              | some sc =>
                  runAux name construct solve rest
                    (scores ++ [sc.mul (EFloat.fin 100)])
                    (warned || (is_hamiltonian_cycle input solution == some false))

/-- `PerformanceTestCase.run` over the paired
`(constructor_inputs[i][0], expected_solutions[i])` records (in `run_tac.py`
both lists are built from the same dataset, so they are paired here). -/
def runTest {σ : Type} (name : String) (construct : Matrix → Except String σ)
    (solve : σ → Except String (List ℤ))
    (records : List (Matrix × List ℤ)) : Option TestResult :=
  runAux name construct solve records [] false

/-- A reference method: an identifier paired with the callable
`traveling_salesman_problem(..., method=func)` invocation; `Except.error`
models a raised exception inside the `try` block. -/
abbrev Method := ℕ × (Matrix → Except String (List ℤ))

/-- The method loop of `gen_best_solution`: run each method, compute its
cycle's cost with `get_path_cost`, keep the result on a strict `<`
improvement; any exception (from the method or from the cost lookup) is
caught, printed and skipped. -/
def gen_best_aux (W : Matrix) :
    List Method → Option (List ℤ) × EFloat × Option ℕ →
      Option (List ℤ) × EFloat × Option ℕ
  | [], st => st
  | (idm, f) :: rest, (bp, bc, bm) =>
      match f W with
      | Except.error _ => gen_best_aux W rest (bp, bc, bm)
      | Except.ok cycle =>
          match get_path_cost W cycle with
          | none => gen_best_aux W rest (bp, bc, bm)
          | some cost =>
              if cost.lt bc then gen_best_aux W rest (some cycle, cost, some idm)
              else gen_best_aux W rest (bp, bc, bm)

/-- `gen_best_solution`: fold the method loop from
`best_cost = np.inf; best_path = None; best_method = None`. -/
def gen_best_solution (W : Matrix) (methods : List Method) :
    Option (List ℤ) × EFloat × Option ℕ :=
  gen_best_aux W methods (none, EFloat.inf, none)

/-- `gen_complete_random_graph`: `adj = rn_state.rand(n, n)` (entry `(i,j)`
modelled by the abstract draw `r i j`), then `adj = adj + adj.T` (entry
`(i,j)` becomes `r i j + r j i`), then
`adj[np.diag_indices(n_nodes)] = np.inf`. -/
def gen_complete_random_graph (n : ℕ) (r : ℕ → ℕ → ℚ) : Matrix :=
  (List.range n).map fun i =>
    (List.range n).map fun j =>
      if i = j then EFloat.inf else EFloat.fin (r i j + r j i)

/-- `gen_geometric_graph`: the loop `for i ... for j in range(i+1, ...)`
installs, for every unordered pair, one undirected edge with weight
`np.hypot(pos[i][0]-pos[j][0], pos[i][1]-pos[j][1])` computed at the
ordered pair `(min i j, max i j)`; `nx.to_numpy_array(graph, nonedge=inf)`
then emits that single weight at both `(i,j)` and `(j,i)` and `inf` on the
diagonal (a node has no self-loop, so `(i,i)` is a non-edge).  `pos`
abstracts the seeded point placement and `h` abstracts `np.hypot` on
float64. -/
def gen_geometric_graph (n : ℕ) (pos : ℕ → ℚ × ℚ) (h : ℚ → ℚ → ℚ) : Matrix :=
  (List.range n).map fun i =>
    (List.range n).map fun j =>
      if i = j then EFloat.inf
      else EFloat.fin
        (h ((pos (min i j)).1 - (pos (max i j)).1)
           ((pos (min i j)).2 - (pos (max i j)).2))

/-- The staging filenames created by one `gen_dataset` run:
`f"{i + temp_start_idx}.pkl"` for `i in range(n_data)`, with
`temp_start_idx = len(os.listdir(temp_folder))`.  Filenames are modelled by
their integer stem. -/
def staging_names (start n : ℕ) : List ℕ :=
  (List.range n).map (· + start)

/-- One `gen_dataset` run against a staging directory holding `dir`:
the run writes `n` new files named past the existing ones. -/
def gen_dataset_run (dir : List ℕ) (n : ℕ) : List ℕ :=
  dir ++ staging_names dir.length n

/-! ### Helper lemmas -/

lemma EFloat.isFinite_exists {w : EFloat} (h : w.isFinite = true) :
    ∃ q, w = EFloat.fin q := by
  cases w <;> first | exact ⟨_, rfl⟩ | simp [EFloat.isFinite] at h

lemma EFloat.not_finite_cond (w : EFloat) :
    (w.isNan || w.isInf || !w.isFinite) = !w.isFinite := by
  cases w <;> rfl

lemma EFloat.isFinite_not_nan {w : EFloat} (h : w.isFinite = true) :
    w.isNan = false := by
  cases w <;> simp_all [EFloat.isFinite, EFloat.isNan]

lemma EFloat.add_fin_fin (a b : ℚ) :
    (EFloat.fin a).add (EFloat.fin b) = EFloat.fin (a + b) := rfl

/-- The edge loop of `is_hamiltonian_cycle` succeeds with the conjunction of
finiteness of all traversed weights, whenever every lookup succeeds. -/
lemma checkEdges_eq_all (W : Matrix) :
    ∀ (ps : List (ℤ × ℤ)) (ws : List EFloat),
      traversedWeights W ps = some ws →
      checkEdges W ps = some (ws.all EFloat.isFinite) := by
  intro ps
  induction ps with
  | nil =>
      intro ws h
      simp only [traversedWeights, Option.some.injEq] at h
      subst h
      rfl
  | cons p rest ih =>
      intro ws h
      obtain ⟨i, j⟩ := p
      simp only [traversedWeights] at h
      cases hm : matGet W i j with
      | none => rw [hm] at h; cases h
      | some w =>
          cases ht : traversedWeights W rest with
          | none => rw [hm, ht] at h; cases h
          | some ws' =>
              rw [hm, ht] at h
              injection h with h
              subst h
              simp only [checkEdges, hm, EFloat.not_finite_cond]
              cases hf : w.isFinite with
              | false => simp [hf]
              | true => simp [hf, ih ws' ht]

/-- If every lookup succeeds and some traversed weight is NaN, the cost loop
returns `+inf` from any accumulator. -/
lemma costAux_of_nan (W : Matrix) :
    ∀ (ps : List (ℤ × ℤ)) (ws : List EFloat),
      traversedWeights W ps = some ws →
      (∃ w ∈ ws, w.isNan = true) →
      ∀ acc, costAux W ps acc = some EFloat.inf := by
  intro ps
  induction ps with
  | nil =>
      intro ws h hnan acc
      simp only [traversedWeights, Option.some.injEq] at h
      subst h
      simp at hnan
  | cons p rest ih =>
      intro ws h hnan acc
      obtain ⟨i, j⟩ := p
      simp only [traversedWeights] at h
      cases hm : matGet W i j with
      | none => rw [hm] at h; cases h
      | some w =>
          cases ht : traversedWeights W rest with
          | none => rw [hm, ht] at h; cases h
          | some ws' =>
              rw [hm, ht] at h
              injection h with h
              subst h
              simp only [costAux, hm]
              cases hn : w.isNan with
              | true => simp [hn]
              | false =>
                  simp only [hn, Bool.false_eq_true, if_false]
                  apply ih ws' ht
                  rcases hnan with ⟨w', hw', hnan'⟩
                  rcases List.mem_cons.mp hw' with rfl | hmem
                  · rw [hn] at hnan'; cases hnan'
                  · exact ⟨w', hmem, hnan'⟩

/-- If every lookup succeeds and no traversed weight is NaN, the cost loop
folds IEEE addition over the traversed weights. -/
lemma costAux_of_no_nan (W : Matrix) :
    ∀ (ps : List (ℤ × ℤ)) (ws : List EFloat),
      traversedWeights W ps = some ws →
      (∀ w ∈ ws, w.isNan = false) →
      ∀ acc, costAux W ps acc = some (ws.foldl EFloat.add acc) := by
  intro ps
  induction ps with
  | nil =>
      intro ws h _ acc
      simp only [traversedWeights, Option.some.injEq] at h
      subst h
      rfl
  | cons p rest ih =>
      intro ws h hnan acc
      obtain ⟨i, j⟩ := p
      simp only [traversedWeights] at h
      cases hm : matGet W i j with
      | none => rw [hm] at h; cases h
      | some w =>
          cases ht : traversedWeights W rest with
          | none => rw [hm, ht] at h; cases h
          | some ws' =>
              rw [hm, ht] at h
              injection h with h
              subst h
              have hw : w.isNan = false := hnan w (List.mem_cons_self _ _)
              simp only [costAux, hm, hw, Bool.false_eq_true, if_false,
                List.foldl_cons]
              exact ih ws' ht (fun w' hw' => hnan w' (List.mem_cons_of_mem _ hw')) _

/-- A successful edge loop means every lookup succeeded and every traversed
weight is finite. -/
lemma checkEdges_true (W : Matrix) :
    ∀ (ps : List (ℤ × ℤ)),
      checkEdges W ps = some true →
      ∃ ws, traversedWeights W ps = some ws ∧ ∀ w ∈ ws, w.isFinite = true := by
  intro ps
  induction ps with
  | nil => intro _; exact ⟨[], rfl, by simp⟩
  | cons p rest ih =>
      intro h
      obtain ⟨i, j⟩ := p
      simp only [checkEdges] at h
      cases hm : matGet W i j with
      | none => rw [hm] at h; cases h
      | some w =>
          rw [hm] at h
          have h' : (if (w.isNan || w.isInf || !w.isFinite) = true then some false
              else checkEdges W rest) = some true := h
          rw [EFloat.not_finite_cond] at h'
          cases hf : w.isFinite with
          | false => rw [hf] at h'; simp at h'
          | true =>
              rw [hf] at h'
              simp only [Bool.not_true, Bool.false_eq_true, if_false] at h'
              obtain ⟨ws', hws', hfin⟩ := ih h'
              refine ⟨w :: ws', ?_, ?_⟩
              · simp only [traversedWeights, hm, hws']
              · intro w' hw'
                rcases List.mem_cons.mp hw' with rfl | hmem
                · exact hf
                · exact hfin w' hmem

/-- Folding IEEE addition of finite weights from a finite start stays
finite. -/
lemma foldl_add_finite :
    ∀ (ws : List EFloat), (∀ w ∈ ws, w.isFinite = true) →
      ∀ q : ℚ, ∃ q', ws.foldl EFloat.add (EFloat.fin q) = EFloat.fin q' := by
  intro ws
  induction ws with
  | nil => intro _ q; exact ⟨q, rfl⟩
  | cons w ws ih =>
      intro h q
      obtain ⟨a, rfl⟩ := EFloat.isFinite_exists (h w (List.mem_cons_self _ _))
      simpa [EFloat.add_fin_fin] using
        ih (fun w' hw' => h w' (List.mem_cons_of_mem _ hw')) (q + a)

/-- Full specification of `is_hamiltonian_cycle` when all lookups
succeed. -/
lemma is_hamiltonian_cycle_eq (W : Matrix) (path : List ℤ) (ws : List EFloat)
    (hw : traversedWeights W (pairsOf path) = some ws) :
    is_hamiltonian_cycle W path =
      some (decide (path.length = W.length + 1) &&
            decide (path.head? = path.getLast?) &&
            decide (path.dropLast.dedup.length = W.length) &&
            ws.all EFloat.isFinite) := by
  unfold is_hamiltonian_cycle
  by_cases h1 : path.length = W.length + 1
  · by_cases h2 : path.head? = path.getLast?
    · by_cases h3 : path.dropLast.dedup.length = W.length
      · simp [h1, h2, h3, checkEdges_eq_all W _ ws hw]
      · simp [h1, h2, h3]
    · simp [h1, h2]
  · simp [h1]

/-- A tour accepted by `is_hamiltonian_cycle` has a finite path cost. -/
lemma get_path_cost_of_hamiltonian (W : Matrix) (path : List ℤ)
    (h : is_hamiltonian_cycle W path = some true) :
    ∃ q, get_path_cost W path = some (EFloat.fin q) := by
  unfold is_hamiltonian_cycle at h
  by_cases h1 : path.length = W.length + 1
  · by_cases h2 : path.head? = path.getLast?
    · by_cases h3 : path.dropLast.dedup.length = W.length
      · simp only [h1, h2, h3, ne_eq, not_true_eq_false, if_false] at h
        obtain ⟨ws, hws, hfin⟩ := checkEdges_true W _ h
        have hnan : ∀ w ∈ ws, w.isNan = false :=
          fun w hw => EFloat.isFinite_not_nan (hfin w hw)
        obtain ⟨q, hq⟩ := foldl_add_finite ws hfin 0
        exact ⟨q, by
          unfold get_path_cost
          rw [costAux_of_no_nan W _ ws hws hnan, hq]⟩
      · simp [h1, h2, h3] at h
    · simp [h1, h2] at h
  · simp [h1] at h

/-- Step equation of the method loop: a raising method is skipped. -/
lemma gen_best_aux_step_error (W : Matrix) (idm : ℕ)
    (f : Matrix → Except String (List ℤ)) (rest : List Method)
    (bp : Option (List ℤ)) (bc : EFloat) (bm : Option ℕ) (e : String)
    (he : f W = Except.error e) :
    gen_best_aux W ((idm, f) :: rest) (bp, bc, bm) =
      gen_best_aux W rest (bp, bc, bm) := by
  conv_lhs => rw [gen_best_aux]
  simp only [he]

/-- Step equation of the method loop: a cost lookup that raises is
skipped. -/
lemma gen_best_aux_step_cost_none (W : Matrix) (idm : ℕ)
    (f : Matrix → Except String (List ℤ)) (rest : List Method)
    (bp : Option (List ℤ)) (bc : EFloat) (bm : Option ℕ) (cyc : List ℤ)
    (he : f W = Except.ok cyc) (hn : get_path_cost W cyc = none) :
    gen_best_aux W ((idm, f) :: rest) (bp, bc, bm) =
      gen_best_aux W rest (bp, bc, bm) := by
  conv_lhs => rw [gen_best_aux]
  simp only [he, hn]

/-- Step equation of the method loop: a computed cost updates the best
state exactly on a strict `<` improvement. -/
lemma gen_best_aux_step_cost (W : Matrix) (idm : ℕ)
    (f : Matrix → Except String (List ℤ)) (rest : List Method)
    (bp : Option (List ℤ)) (bc : EFloat) (bm : Option ℕ) (cyc : List ℤ)
    (cost : EFloat) (he : f W = Except.ok cyc)
    (hc : get_path_cost W cyc = some cost) :
    gen_best_aux W ((idm, f) :: rest) (bp, bc, bm) =
      if cost.lt bc then gen_best_aux W rest (some cyc, cost, some idm)
      else gen_best_aux W rest (bp, bc, bm) := by
  conv_lhs => rw [gen_best_aux]
  simp only [he, hc]

/-- The method loop never changes a state that no remaining method can
strictly improve on. -/
lemma gen_best_aux_no_improve (W : Matrix) :
    ∀ (l : List Method) (bp : Option (List ℤ)) (bc : EFloat) (bm : Option ℕ),
      (∀ p ∈ l, (∃ e, p.2 W = Except.error e) ∨
        ∃ cyc, p.2 W = Except.ok cyc ∧
          (get_path_cost W cyc = none ∨
            ∃ c', get_path_cost W cyc = some c' ∧ c'.lt bc = false)) →
      gen_best_aux W l (bp, bc, bm) = (bp, bc, bm) := by
  intro l
  induction l with
  | nil => intro bp bc bm _; rfl
  | cons p l ih =>
      intro bp bc bm h
      obtain ⟨idm, f⟩ := p
      have hrest := fun p hp => h p (List.mem_cons_of_mem _ hp)
      rcases h (idm, f) (List.mem_cons_self _ _) with ⟨e, he⟩ | ⟨cyc, hcyc, hcost⟩
      · rw [gen_best_aux_step_error W idm f l bp bc bm e he]
        exact ih bp bc bm hrest
      · rcases hcost with hnone | ⟨c', hc', hlt⟩
        · rw [gen_best_aux_step_cost_none W idm f l bp bc bm cyc hcyc hnone]
          exact ih bp bc bm hrest
        · rw [gen_best_aux_step_cost W idm f l bp bc bm cyc c' hcyc hc', hlt]
          simp only [Bool.false_eq_true, if_false]
          exact ih bp bc bm hrest

/-- Running the method loop over a block of methods whose successful costs
all stay strictly above `c` preserves "best cost strictly above `c`" and
only changes the accumulated state. -/
lemma gen_best_aux_pre (W : Matrix) (c : EFloat) :
    ∀ (l rest : List Method) (bp : Option (List ℤ)) (bc : EFloat)
      (bm : Option ℕ),
      c.lt bc = true →
      (∀ p ∈ l, (∃ e, p.2 W = Except.error e) ∨
        ∃ cyc, p.2 W = Except.ok cyc ∧
          (get_path_cost W cyc = none ∨
            ∃ c', get_path_cost W cyc = some c' ∧ c.lt c' = true)) →
      ∃ bp' bc' bm',
        gen_best_aux W (l ++ rest) (bp, bc, bm) =
          gen_best_aux W rest (bp', bc', bm') ∧ c.lt bc' = true := by
  intro l
  induction l with
  | nil => intro rest bp bc bm hbc _; exact ⟨bp, bc, bm, rfl, hbc⟩
  | cons p l ih =>
      intro rest bp bc bm hbc h
      obtain ⟨idm, f⟩ := p
      have hrest := fun p hp => h p (List.mem_cons_of_mem _ hp)
      rcases h (idm, f) (List.mem_cons_self _ _) with ⟨e, he⟩ | ⟨cyc, hcyc, hcost⟩
      · rw [List.cons_append,
          gen_best_aux_step_error W idm f (l ++ rest) bp bc bm e he]
        exact ih rest bp bc bm hbc hrest
      · rcases hcost with hnone | ⟨c', hc', hlt⟩
        · rw [List.cons_append,
            gen_best_aux_step_cost_none W idm f (l ++ rest) bp bc bm cyc hcyc hnone]
          exact ih rest bp bc bm hbc hrest
        · rw [List.cons_append,
            gen_best_aux_step_cost W idm f (l ++ rest) bp bc bm cyc c' hcyc hc']
          by_cases himp : c'.lt bc = true
          · rw [himp, if_pos rfl]
            exact ih rest (some cyc) c' (some idm) hlt hrest
          · rw [Bool.not_eq_true] at himp
            rw [himp]
            simp only [Bool.false_eq_true, if_false]
            exact ih rest bp bc bm hbc hrest

/-- Step equation of the grading loop: a record with a successful
construction, solve and score advances the accumulators. -/
lemma runAux_step_ok {σ : Type} (name : String)
    (construct : Matrix → Except String σ)
    (solve : σ → Except String (List ℤ)) (input : Matrix) (target : List ℤ)
    (rest : List (Matrix × List ℤ)) (scores : List EFloat) (warned : Bool)
    (s : σ) (sol : List ℤ) (sc : EFloat)
    (h1 : construct input = Except.ok s) (h2 : solve s = Except.ok sol)
    (h3 : compute_score input sol target = some sc) :
    runAux name construct solve ((input, target) :: rest) scores warned =
      runAux name construct solve rest
        (scores ++ [sc.mul (EFloat.fin 100)])
        (warned || (is_hamiltonian_cycle input sol == some false)) := by
  conv_lhs => rw [runAux]
  simp only [h1, h2, h3]

/-- Step equation of the grading loop: a raising constructor aborts the
whole run with a zero result. -/
lemma runAux_step_construct_error {σ : Type} (name : String)
    (construct : Matrix → Except String σ)
    (solve : σ → Except String (List ℤ)) (input : Matrix) (target : List ℤ)
    (rest : List (Matrix × List ℤ)) (scores : List EFloat) (warned : Bool)
    (e : String) (h : construct input = Except.error e) :
    runAux name construct solve ((input, target) :: rest) scores warned =
      some ⟨name, EFloat.fin 0, instantiationErrorMsg ++ e⟩ := by
  conv_lhs => rw [runAux]
  simp only [h]

/-- Step equation of the grading loop: a raising solve call aborts the
whole run with a zero result. -/
lemma runAux_step_solve_error {σ : Type} (name : String)
    (construct : Matrix → Except String σ)
    (solve : σ → Except String (List ℤ)) (input : Matrix) (target : List ℤ)
    (rest : List (Matrix × List ℤ)) (scores : List EFloat) (warned : Bool)
    (s : σ) (e : String) (h1 : construct input = Except.ok s)
    (h2 : solve s = Except.error e) :
    runAux name construct solve ((input, target) :: rest) scores warned =
      some ⟨name, EFloat.fin 0, testErrorMsg ++ e⟩ := by
  conv_lhs => rw [runAux]
  simp only [h1, h2]

/-- Records on which the candidate constructs, solves and scores without an
exception only advance the accumulators of the grading loop. -/
lemma runAux_ok_prefix {σ : Type} (name : String)
    (construct : Matrix → Except String σ)
    (solve : σ → Except String (List ℤ)) :
    ∀ (pre rest : List (Matrix × List ℤ)),
      (∀ r ∈ pre, ∃ s sol sc, construct r.1 = Except.ok s ∧
        solve s = Except.ok sol ∧ compute_score r.1 sol r.2 = some sc) →
      ∀ scores warned, ∃ scores' warned',
        runAux name construct solve (pre ++ rest) scores warned =
          runAux name construct solve rest scores' warned' := by
  intro pre
  induction pre with
  | nil => intro rest _ scores warned; exact ⟨scores, warned, rfl⟩
  | cons r pre ih =>
      intro rest h scores warned
      obtain ⟨input, target⟩ := r
      obtain ⟨s, sol, sc, h1, h2, h3⟩ := h (input, target) (List.mem_cons_self _ _)
      have hrest := fun r hr => h r (List.mem_cons_of_mem _ hr)
      rw [List.cons_append,
        runAux_step_ok name construct solve input target _ scores warned s sol sc h1 h2 h3]
      exact ih rest hrest _ _

/-! ### Concrete fixtures used by witnesses and counterexamples -/

/-- The 3-node graph of the spec's Scenario A:
`[[inf,1,2],[1,inf,3],[2,3,inf]]`. -/
def exW3 : Matrix :=
  [[EFloat.inf, EFloat.fin 1, EFloat.fin 2],
   [EFloat.fin 1, EFloat.inf, EFloat.fin 3],
   [EFloat.fin 2, EFloat.fin 3, EFloat.inf]]

/-- A 2-node graph `[[inf,1],[1,inf]]`. -/
def exW2 : Matrix :=
  [[EFloat.inf, EFloat.fin 1], [EFloat.fin 1, EFloat.inf]]

/-- A 3-node graph with a NaN weight on the `0 - 2` edge. -/
def exWnan : Matrix :=
  [[EFloat.inf, EFloat.fin 1, EFloat.nan],
   [EFloat.fin 1, EFloat.inf, EFloat.fin 1],
   [EFloat.nan, EFloat.fin 1, EFloat.inf]]

/-- Unfolding of `compute_score` on a valid candidate with both costs
computed. -/
lemma compute_score_eq (W : Matrix) (sol target : List ℤ)
    (oc tc : EFloat) (h : is_hamiltonian_cycle W sol = some true)
    (ho : get_path_cost W sol = some oc)
    (ht : get_path_cost W target = some tc) :
    compute_score W sol target = some (EFloat.nanToNum (tc.div oc)) := by
  unfold compute_score
  simp only [h, ho, ht]

lemma cost_exW3_tour : get_path_cost exW3 [0, 1, 2, 0] = some (EFloat.fin 6) := by
  simp [get_path_cost, pairsOf, costAux, matGet, pyGet, exW3,
    EFloat.add, EFloat.isNan, Int.toNat_ofNat]
  norm_num

lemma cost_exW3_rev : get_path_cost exW3 [0, 2, 1, 0] = some (EFloat.fin 6) := by
  simp [get_path_cost, pairsOf, costAux, matGet, pyGet, exW3,
    EFloat.add, EFloat.isNan, Int.toNat_ofNat]
  norm_num

lemma cost_exW3_walk : get_path_cost exW3 [0, 2, 0, 2, 0] = some (EFloat.fin 8) := by
  simp [get_path_cost, pairsOf, costAux, matGet, pyGet, exW3,
    EFloat.add, EFloat.isNan, Int.toNat_ofNat]
  norm_num

lemma cost_exW2_tour : get_path_cost exW2 [0, 1, 0] = some (EFloat.fin 2) := by
  simp [get_path_cost, pairsOf, costAux, matGet, pyGet, exW2,
    EFloat.add, EFloat.isNan, Int.toNat_ofNat]
  norm_num

/-! ### Claims -/

/-- C2: for every graph with `n` nodes and every tour, `is_hamiltonian_cycle`
returns false if `len(tour) != n + 1`, or `tour[0] != tour[-1]`, or the
number of distinct values among `tour[0..n-1]` is not exactly `n`, or any
traversed edge weight is non-finite; and it returns true otherwise (the last
conjunct assumes the per-edge lookups succeed, i.e. do not raise). -/
theorem C2_is_hamiltonian_cycle_spec (W : Matrix) (path : List ℤ) :
    (path.length ≠ W.length + 1 → is_hamiltonian_cycle W path = some false)
  ∧ (path.head? ≠ path.getLast? → is_hamiltonian_cycle W path = some false)
  ∧ (path.dropLast.dedup.length ≠ W.length →
      is_hamiltonian_cycle W path = some false)
  ∧ (∀ ws, traversedWeights W (pairsOf path) = some ws →
      is_hamiltonian_cycle W path =
        some (decide (path.length = W.length + 1) &&
              decide (path.head? = path.getLast?) &&
              decide (path.dropLast.dedup.length = W.length) &&
              ws.all EFloat.isFinite)) := by
  refine ⟨?_, ?_, ?_, ?_⟩
  · intro h
    unfold is_hamiltonian_cycle
    simp [h]
  · intro h
    unfold is_hamiltonian_cycle
    by_cases h1 : path.length = W.length + 1 <;> simp [h1, h]
  · intro h
    unfold is_hamiltonian_cycle
    by_cases h1 : path.length = W.length + 1 <;>
      by_cases h2 : path.head? = path.getLast? <;> simp [h1, h2, h]
  · intro ws hw
    exact is_hamiltonian_cycle_eq W path ws hw

/-- Witness for C2 on the spec's Scenario A graph: the tour `[0,1,2,0]` is
accepted, the wrong-length tour `[0,1,0]` is rejected. -/
theorem C2_witness :
    is_hamiltonian_cycle exW3 [0, 1, 2, 0] = some true
  ∧ is_hamiltonian_cycle exW3 [0, 1, 0] = some false := by
  constructor
  · rw [(C2_is_hamiltonian_cycle_spec exW3 [0, 1, 2, 0]).2.2.2
      [EFloat.fin 1, EFloat.fin 3, EFloat.fin 2] (by decide)]
    decide
  · exact (C2_is_hamiltonian_cycle_spec exW3 [0, 1, 0]).1 (by decide)

/-- C9: a tour of length `n+1`, closed, with `n` distinct values that are
not the integers `0..n-1` (it contains an out-of-range value) still passes
the cardinality check and `is_hamiltonian_cycle` returns true, provided the
per-edge lookups succeed and yield finite weights. -/
theorem C9_out_of_range_tour_accepted (W : Matrix) (path : List ℤ)
    (ws : List EFloat)
    (hlen : path.length = W.length + 1)
    (hclose : path.head? = path.getLast?)
    (hcard : path.dropLast.dedup.length = W.length)
    (_hout : ∃ v ∈ path.dropLast, v < 0 ∨ (W.length : ℤ) ≤ v)
    (hw : traversedWeights W (pairsOf path) = some ws)
    (hfin : ws.all EFloat.isFinite = true) :
    is_hamiltonian_cycle W path = some true := by
  rw [is_hamiltonian_cycle_eq W path ws hw]
  simp [hlen, hclose, hcard, hfin]

/-- Witness for C9: on the 2-node graph, the tour `[0, -1, 0]` has two
distinct values (`0` and `-1`, not `{0, 1}`), its negative index wraps
around in the lookups, and the tour is accepted. -/
theorem C9_witness :
    ((-1 : ℤ) ∈ List.dropLast [0, -1, 0] ∧ (-1 : ℤ) < 0)
  ∧ is_hamiltonian_cycle exW2 [0, -1, 0] = some true := by
  refine ⟨by decide, ?_⟩
  exact C9_out_of_range_tour_accepted exW2 [0, -1, 0]
    [EFloat.fin 1, EFloat.fin 1] (by decide) (by decide) (by decide)
    ⟨-1, by decide, Or.inl (by decide)⟩ (by decide) (by decide)

/-- C3: when every lookup along the tour succeeds, `get_path_cost` returns
`+infinity` whenever some traversed weight is NaN (regardless of its
position), and otherwise returns the (IEEE) sum of the traversed weights. -/
theorem C3_get_path_cost_spec (W : Matrix) (path : List ℤ) (ws : List EFloat)
    (hw : traversedWeights W (pairsOf path) = some ws) :
    ((∃ w ∈ ws, w.isNan = true) → get_path_cost W path = some EFloat.inf)
  ∧ ((∀ w ∈ ws, w.isNan = false) →
      get_path_cost W path = some (ws.foldl EFloat.add (EFloat.fin 0))) := by
  constructor
  · intro h
    unfold get_path_cost
    exact costAux_of_nan W _ ws hw h _
  · intro h
    unfold get_path_cost
    exact costAux_of_no_nan W _ ws hw h _

/-- Witness for C3: a NaN on the last traversed edge yields `+infinity`;
Scenario A's tour sums to `6`. -/
theorem C3_witness :
    get_path_cost exWnan [0, 1, 2, 0] = some EFloat.inf
  ∧ get_path_cost exW3 [0, 1, 2, 0] = some (EFloat.fin 6) := by
  constructor
  · exact (C3_get_path_cost_spec exWnan [0, 1, 2, 0]
      [EFloat.fin 1, EFloat.fin 1, EFloat.nan] (by decide)).1
      ⟨EFloat.nan, by decide, rfl⟩
  · rw [(C3_get_path_cost_spec exW3 [0, 1, 2, 0]
      [EFloat.fin 1, EFloat.fin 3, EFloat.fin 2] (by decide)).2 (by decide)]
    norm_num [List.foldl, EFloat.add]

/-- C10: a candidate accepted by `is_hamiltonian_cycle` (hence of finite
cost) scores exactly `0.0` whenever the reference tour's cost is
`+infinity`: the ratio `inf / finite` is infinite and is sanitized to 0. -/
theorem C10_infinite_reference_scores_zero (W : Matrix) (sol target : List ℤ)
    (hham : is_hamiltonian_cycle W sol = some true)
    (htgt : get_path_cost W target = some EFloat.inf) :
    compute_score W sol target = some (EFloat.fin 0) := by
  obtain ⟨q, hq⟩ := get_path_cost_of_hamiltonian W sol hham
  unfold compute_score
  simp only [hham, hq, htgt]
  by_cases hq0 : q < 0 <;> simp [EFloat.div, EFloat.nanToNum, hq0]

/-- Witness for C10: on the 2-node graph, the valid tour `[0,1,0]` (cost 2)
against the infinite-cost reference `[0,0]` scores `0`. -/
theorem C10_witness :
    compute_score exW2 [0, 1, 0] [0, 0] = some (EFloat.fin 0) :=
  C10_infinite_reference_scores_zero exW2 [0, 1, 0] [0, 0]
    (by decide) (by decide)

/-- Counterexample to C1 as stated: on the 2-node graph, the candidate
`[0,1,0]` is a valid Hamiltonian cycle of cost `2`, the reference `[0,0]`
has cost `+infinity`, so the candidate cost is strictly less than the
reference cost, yet `compute_score` returns `0.0`, not a value greater
than `1.0`. -/
theorem C1_counterexample :
    is_hamiltonian_cycle exW2 [0, 1, 0] = some true
  ∧ get_path_cost exW2 [0, 1, 0] = some (EFloat.fin 2)
  ∧ get_path_cost exW2 [0, 0] = some EFloat.inf
  ∧ EFloat.lt (EFloat.fin 2) EFloat.inf = true
  ∧ compute_score exW2 [0, 1, 0] [0, 0] = some (EFloat.fin 0)
  ∧ EFloat.lt (EFloat.fin 1) (EFloat.fin 0) = false := by
  refine ⟨by decide, cost_exW2_tour, by decide, by decide, ?_, by decide⟩
  rw [compute_score_eq exW2 [0, 1, 0] [0, 0] (EFloat.fin 2) EFloat.inf
    (by decide) cost_exW2_tour (by decide)]
  decide

/-- C1 (amended): `compute_score` returns exactly `0.0` for an invalid
candidate; otherwise it returns `nan_to_num(reference_cost/candidate_cost)`
with `nan -> 1.0`, `+inf -> 0.0`, `-inf -> 0.0` and no upper clamp; it
returns exactly `1.0` when the costs are equal; and when the reference cost
is finite and the candidate cost is strictly positive, a candidate cost
strictly below the reference cost yields a score strictly greater than
`1.0`. -/
theorem C1_compute_score_spec (W : Matrix) (sol target : List ℤ) :
    (is_hamiltonian_cycle W sol = some false →
      compute_score W sol target = some (EFloat.fin 0))
  ∧ (∀ objCost targetCost, is_hamiltonian_cycle W sol = some true →
      get_path_cost W sol = some objCost →
      get_path_cost W target = some targetCost →
      compute_score W sol target =
        some (EFloat.nanToNum (targetCost.div objCost)))
  ∧ (∀ c, is_hamiltonian_cycle W sol = some true →
      get_path_cost W sol = some c → get_path_cost W target = some c →
      compute_score W sol target = some (EFloat.fin 1))
  ∧ (∀ q r, is_hamiltonian_cycle W sol = some true →
      get_path_cost W sol = some (EFloat.fin q) →
      get_path_cost W target = some (EFloat.fin r) →
      0 < q → q < r →
      compute_score W sol target = some (EFloat.fin (r / q)) ∧ 1 < r / q) := by
  refine ⟨?_, ?_, ?_, ?_⟩
  · intro h
    unfold compute_score
    simp only [h]
  · intro oc tc h ho ht
    unfold compute_score
    simp only [h, ho, ht]
  · intro c h ho ht
    obtain ⟨q, hq⟩ := get_path_cost_of_hamiltonian W sol h
    rw [ho] at hq
    injection hq with hq
    subst hq
    unfold compute_score
    simp only [h, ho, ht]
    by_cases hq0 : q = 0
    · simp [EFloat.div, EFloat.nanToNum, hq0]
    · simp [EFloat.div, EFloat.nanToNum, hq0, div_self]
  · intro q r h ho ht hq hlt
    have hne : q ≠ 0 := ne_of_gt hq
    constructor
    · unfold compute_score
      simp only [h, ho, ht]
      simp [EFloat.div, EFloat.nanToNum, hne]
    · exact (one_lt_div hq).mpr hlt

/-- Witness for C1 on Scenario A's graph: an invalid candidate scores `0`,
equal costs (6 vs 6) score exactly `1`, and a candidate of cost 6 against a
finite reference walk of cost 8 scores `8/6 > 1`. -/
theorem C1_witness :
    compute_score exW3 [0, 1, 0] [0, 2, 1, 0] = some (EFloat.fin 0)
  ∧ compute_score exW3 [0, 1, 2, 0] [0, 2, 1, 0] = some (EFloat.fin 1)
  ∧ ∃ s, compute_score exW3 [0, 1, 2, 0] [0, 2, 0, 2, 0] =
      some (EFloat.fin s) ∧ 1 < s := by
  refine ⟨(C1_compute_score_spec exW3 [0, 1, 0] [0, 2, 1, 0]).1 (by decide),
    (C1_compute_score_spec exW3 [0, 1, 2, 0] [0, 2, 1, 0]).2.2.1
      (EFloat.fin 6) (by decide) cost_exW3_tour cost_exW3_rev, ?_⟩
  have h := (C1_compute_score_spec exW3 [0, 1, 2, 0] [0, 2, 0, 2, 0]).2.2.2
    6 8 (by decide) cost_exW3_tour cost_exW3_walk (by norm_num) (by norm_num)
  exact ⟨8 / 6, h.1, h.2⟩

/-- C4: if constructing the candidate or calling its solve method raises on
any single record, `PerformanceTestCase.run` stops immediately (the result
does not depend on the records after the failing one) and returns a result
with percent value `0.0` whose message contains the triggering error; no
partial mean over the remaining records is produced.  The records before
the failing one are assumed to construct, solve and score without an
exception. -/
theorem C4_run_fail_fast {σ : Type} (name : String)
    (construct : Matrix → Except String σ)
    (solve : σ → Except String (List ℤ))
    (pre : List (Matrix × List ℤ)) (input : Matrix) (target : List ℤ)
    (e : String)
    (hpre : ∀ r ∈ pre, ∃ s sol sc, construct r.1 = Except.ok s ∧
      solve s = Except.ok sol ∧ compute_score r.1 sol r.2 = some sc) :
    (construct input = Except.error e →
      ∀ rest, runTest name construct solve (pre ++ (input, target) :: rest) =
        some ⟨name, EFloat.fin 0, instantiationErrorMsg ++ e⟩)
  ∧ (∀ s, construct input = Except.ok s → solve s = Except.error e →
      ∀ rest, runTest name construct solve (pre ++ (input, target) :: rest) =
        some ⟨name, EFloat.fin 0, testErrorMsg ++ e⟩) := by
  constructor
  · intro hc rest
    unfold runTest
    obtain ⟨scores', warned', heq⟩ :=
      runAux_ok_prefix name construct solve pre ((input, target) :: rest)
        hpre [] false
    rw [heq]
    exact runAux_step_construct_error name construct solve input target rest
      scores' warned' e hc
  · intro s hc hs rest
    unfold runTest
    obtain ⟨scores', warned', heq⟩ :=
      runAux_ok_prefix name construct solve pre ((input, target) :: rest)
        hpre [] false
    rw [heq]
    exact runAux_step_solve_error name construct solve input target rest
      scores' warned' s e hc hs

/-- A candidate under test that raises `boom` on the empty matrix and
solves the 2-node graph with the valid tour `[0,1,0]`. -/
def construct0 : Matrix → Except String Unit :=
  fun m => if m.length = 0 then Except.error "boom" else Except.ok ()

/-- The solve method of the `construct0` candidate. -/
def solve0 : Unit → Except String (List ℤ) :=
  fun _ => Except.ok [0, 1, 0]

/-- Witness for C4: after one successfully scored record, the record whose
construction raises `boom` aborts the run with percent `0` and the error in
the message, regardless of a further pending record. -/
theorem C4_witness :
    runTest "t" construct0 solve0 [(exW2, [0, 1, 0]), ([], [0]), (exW2, [0, 1, 0])] =
      some ⟨"t", EFloat.fin 0, instantiationErrorMsg ++ "boom"⟩ := by
  have h := (C4_run_fail_fast "t" construct0 solve0 [(exW2, [0, 1, 0])] [] [0] "boom"
    (by
      intro r hr
      simp only [List.mem_singleton] at hr
      subst hr
      exact ⟨(), [0, 1, 0], EFloat.fin 1, rfl, rfl, by
        rw [compute_score_eq exW2 [0, 1, 0] [0, 1, 0] (EFloat.fin 2)
          (EFloat.fin 2) (by decide) cost_exW2_tour cost_exW2_tour]
        norm_num [EFloat.div, EFloat.nanToNum]⟩)).1 rfl [(exW2, [0, 1, 0])]
  simpa using h

/-- C5: inside `gen_best_solution`, a method that raises is caught and
skipped without affecting the search over the remaining methods; and if no
method yields a result with cost strictly below `+infinity`, the function
returns `(None, +infinity, None)`. -/
theorem C5_method_failures_skipped (W : Matrix) (methods : List Method) :
    (∀ (st : Option (List ℤ) × EFloat × Option ℕ) (idm : ℕ)
      (f : Matrix → Except String (List ℤ)) (e : String) (rest : List Method),
      f W = Except.error e →
      gen_best_aux W ((idm, f) :: rest) st = gen_best_aux W rest st)
  ∧ ((∀ p ∈ methods, ∀ cyc, p.2 W = Except.ok cyc →
      ∀ c, get_path_cost W cyc = some c → c.lt EFloat.inf = false) →
      gen_best_solution W methods = (none, EFloat.inf, none)) := by
  constructor
  · intro st idm f e rest hf
    obtain ⟨bp, bc, bm⟩ := st
    exact gen_best_aux_step_error W idm f rest bp bc bm e hf
  · intro h
    unfold gen_best_solution
    apply gen_best_aux_no_improve
    intro p hp
    cases hfw : p.2 W with
    | error e => exact Or.inl ⟨e, rfl⟩
    | ok cyc =>
        refine Or.inr ⟨cyc, rfl, ?_⟩
        cases hco : get_path_cost W cyc with
        | none => exact Or.inl rfl
        | some c => exact Or.inr ⟨c, rfl, h p hp cyc hfw c hco⟩

/-- A reference method that always raises. -/
def mFail : Matrix → Except String (List ℤ) := fun _ => Except.error "x"

/-- A reference method returning the self-loop walk `[0,0]` (infinite cost
on `exW2`). -/
def mZero : Matrix → Except String (List ℤ) := fun _ => Except.ok [0, 0]

/-- A reference method returning the tour `[0,1,0]` (cost 2 on `exW2`). -/
def mGood : Matrix → Except String (List ℤ) := fun _ => Except.ok [0, 1, 0]

/-- Witness for C5: a raising method is skipped, and with only a raising
method and an infinite-cost method the search returns
`(None, +infinity, None)`. -/
theorem C5_witness :
    gen_best_aux exW2 [(0, mFail), (1, mZero)] (none, EFloat.inf, none) =
      gen_best_aux exW2 [(1, mZero)] (none, EFloat.inf, none)
  ∧ gen_best_solution exW2 [(0, mFail), (1, mZero)] =
      (none, EFloat.inf, none) := by
  constructor
  · exact (C5_method_failures_skipped exW2 [(0, mFail), (1, mZero)]).1
      (none, EFloat.inf, none) 0 mFail "x" [(1, mZero)] rfl
  · apply (C5_method_failures_skipped exW2 [(0, mFail), (1, mZero)]).2
    intro p hp cyc hcyc c hco
    rcases List.mem_cons.mp hp with rfl | hp
    · cases hcyc
    · rcases List.mem_cons.mp hp with rfl | hp
      · injection hcyc with hcyc
        subst hcyc
        have : c = EFloat.inf := by
          have := hco.symm.trans (show get_path_cost exW2 [0, 0] = some EFloat.inf by decide)
          injection this
        subst this
        rfl
      · cases hp

/-- C6: `gen_best_solution` updates its best state only on a strict `<`
improvement, so among the methods whose tours tie at the minimum cost the
first one in the given order is the one whose tour and identity are
returned: if every earlier method fails or has cost strictly above `c`,
method `(id0, f0)` succeeds with cost `c < +infinity`, and every later
method fails or has cost not strictly below `c`, the result is
`(f0`'s tour`, c, id0)`. -/
theorem C6_strict_improvement_first_wins (W : Matrix) (pre suf : List Method)
    (id0 : ℕ) (f0 : Matrix → Except String (List ℤ)) (cyc0 : List ℤ)
    (c : EFloat)
    (h0 : f0 W = Except.ok cyc0) (hc : get_path_cost W cyc0 = some c)
    (hcfin : c.lt EFloat.inf = true)
    (hpre : ∀ p ∈ pre, (∃ e, p.2 W = Except.error e) ∨
      ∃ cyc, p.2 W = Except.ok cyc ∧
        (get_path_cost W cyc = none ∨
          ∃ c', get_path_cost W cyc = some c' ∧ c.lt c' = true))
    (hsuf : ∀ p ∈ suf, (∃ e, p.2 W = Except.error e) ∨
      ∃ cyc, p.2 W = Except.ok cyc ∧
        (get_path_cost W cyc = none ∨
          ∃ c', get_path_cost W cyc = some c' ∧ c'.lt c = false)) :
    gen_best_solution W (pre ++ (id0, f0) :: suf) = (some cyc0, c, some id0) := by
  unfold gen_best_solution
  obtain ⟨bp', bc', bm', heq, hlt⟩ :=
    gen_best_aux_pre W c pre ((id0, f0) :: suf) none EFloat.inf none hcfin hpre
  rw [heq, gen_best_aux_step_cost W id0 f0 suf bp' bc' bm' cyc0 c h0 hc, hlt,
    if_pos rfl]
  exact gen_best_aux_no_improve W suf (some cyc0) c (some id0) hsuf

/-- Witness for C6: after an infinite-cost method, two methods tie at cost
2; the first of the tying methods (identity 1) supplies the returned tour
and identity. -/
theorem C6_witness :
    gen_best_solution exW2 [(0, mZero), (1, mGood), (2, mGood)] =
      (some [0, 1, 0], EFloat.fin 2, some 1) := by
  have h := C6_strict_improvement_first_wins exW2 [(0, mZero)] [(2, mGood)]
    1 mGood [0, 1, 0] (EFloat.fin 2) rfl cost_exW2_tour (by decide)
    (by
      intro p hp
      simp only [List.mem_singleton] at hp
      subst hp
      exact Or.inr ⟨[0, 0], rfl, Or.inr ⟨EFloat.inf, by decide, by decide⟩⟩)
    (by
      intro p hp
      simp only [List.mem_singleton] at hp
      subst hp
      exact Or.inr ⟨[0, 1, 0], rfl, Or.inr ⟨EFloat.fin 2, cost_exW2_tour, by decide⟩⟩)
  simpa using h

/-- Indexing a `range`-built list at an in-range natural index. -/
lemma pyGet_range_map {α : Type} (n : ℕ) (f : ℕ → α) (i : ℕ) (hi : i < n) :
    pyGet ((List.range n).map f) (i : ℤ) = some (f i) := by
  unfold pyGet
  rw [if_pos (Int.natCast_nonneg i)]
  simp [List.getElem?_map, List.getElem?_range hi]

/-- Entry `(i, j)` of a matrix built row-by-row over `range n`. -/
lemma matGet_mk (n : ℕ) (f : ℕ → ℕ → EFloat) (i j : ℕ) (hi : i < n)
    (hj : j < n) :
    matGet ((List.range n).map fun a => (List.range n).map fun b => f a b)
      (i : ℤ) (j : ℤ) = some (f i j) := by
  unfold matGet
  rw [pyGet_range_map n _ i hi]
  simp [pyGet_range_map n (f i) j hj]

/-- C7: for every node count, seed draw and placement, the matrices built by
both generation strategies (`random` and `geometric`) are symmetric on all
in-range indices, and their diagonal entries are `+infinity`. -/
theorem C7_generated_graphs_symmetric_inf_diagonal (n : ℕ) (r : ℕ → ℕ → ℚ)
    (pos : ℕ → ℚ × ℚ) (h : ℚ → ℚ → ℚ) (i j : ℕ) (hi : i < n) (hj : j < n) :
    matGet (gen_complete_random_graph n r) i j =
      matGet (gen_complete_random_graph n r) j i
  ∧ matGet (gen_complete_random_graph n r) i i = some EFloat.inf
  ∧ matGet (gen_geometric_graph n pos h) i j =
      matGet (gen_geometric_graph n pos h) j i
  ∧ matGet (gen_geometric_graph n pos h) i i = some EFloat.inf := by
  refine ⟨?_, ?_, ?_, ?_⟩
  · unfold gen_complete_random_graph
    rw [matGet_mk n (fun a b => if a = b then EFloat.inf
        else EFloat.fin (r a b + r b a)) i j hi hj,
      matGet_mk n (fun a b => if a = b then EFloat.inf
        else EFloat.fin (r a b + r b a)) j i hj hi]
    by_cases hij : i = j
    · subst hij; rfl
    · have hji : j ≠ i := fun hh => hij hh.symm
      simp [hij, hji, add_comm]
  · unfold gen_complete_random_graph
    rw [matGet_mk n (fun a b => if a = b then EFloat.inf
        else EFloat.fin (r a b + r b a)) i i hi hi]
    simp
  · unfold gen_geometric_graph
    rw [matGet_mk n (fun a b => if a = b then EFloat.inf
        else EFloat.fin (h ((pos (min a b)).1 - (pos (max a b)).1)
          ((pos (min a b)).2 - (pos (max a b)).2))) i j hi hj,
      matGet_mk n (fun a b => if a = b then EFloat.inf
        else EFloat.fin (h ((pos (min a b)).1 - (pos (max a b)).1)
          ((pos (min a b)).2 - (pos (max a b)).2))) j i hj hi]
    by_cases hij : i = j
    · subst hij; rfl
    · have hji : j ≠ i := fun hh => hij hh.symm
      simp [hij, hji, min_comm, max_comm]
  · unfold gen_geometric_graph
    rw [matGet_mk n (fun a b => if a = b then EFloat.inf
        else EFloat.fin (h ((pos (min a b)).1 - (pos (max a b)).1)
          ((pos (min a b)).2 - (pos (max a b)).2))) i i hi hi]
    simp

/-- A concrete draw function standing in for `rn_state.rand`. -/
def rEx : ℕ → ℕ → ℚ := fun i j => (i : ℚ) + 2 * (j : ℚ)

/-- A concrete point placement standing in for the seeded geometric
positions. -/
def posEx : ℕ → ℚ × ℚ := fun i => ((i : ℚ), 0)

/-- A concrete symmetric magnitude standing in for `np.hypot`. -/
def hEx : ℚ → ℚ → ℚ := fun a b => a * a + b * b

/-- Witness for C7 on a 2-node instance of both strategies. -/
theorem C7_witness :
    ((0 : ℕ) < 2 ∧ (1 : ℕ) < 2)
  ∧ matGet (gen_complete_random_graph 2 rEx) 0 1 =
      matGet (gen_complete_random_graph 2 rEx) 1 0
  ∧ matGet (gen_complete_random_graph 2 rEx) 0 0 = some EFloat.inf
  ∧ matGet (gen_geometric_graph 2 posEx hEx) 0 1 =
      matGet (gen_geometric_graph 2 posEx hEx) 1 0
  ∧ matGet (gen_geometric_graph 2 posEx hEx) 0 0 = some EFloat.inf := by
  have h := C7_generated_graphs_symmetric_inf_diagonal 2 rEx posEx hEx 0 1
    (by decide) (by decide)
  exact ⟨⟨by decide, by decide⟩, h.1, h.2.1, h.2.2.1, h.2.2.2⟩

/-- C8: each record of a `gen_dataset` run is persisted to a staging file
named by its record index offset by the number of staging files already
present, so a fresh name never collides with the contiguously named
existing files; a run with `n_records = 5` into an empty staging directory
creates exactly the 5 files `0..4`, and a subsequent run with
`n_records = 3` appends the 3 files `5..7` (total 8) without overwriting
any existing file. -/
theorem C8_staging_files_append (k n x : ℕ) :
    (x ∈ staging_names k n → x ∉ List.range k)
  ∧ gen_dataset_run [] 5 = [0, 1, 2, 3, 4]
  ∧ (gen_dataset_run [] 5).length = 5
  ∧ gen_dataset_run (gen_dataset_run [] 5) 3 = [0, 1, 2, 3, 4, 5, 6, 7]
  ∧ (gen_dataset_run (gen_dataset_run [] 5) 3).length = 8 := by
  refine ⟨?_, by decide, by decide, by decide, by decide⟩
  intro hx hk
  obtain ⟨a, _, rfl⟩ := List.mem_map.mp hx
  have := List.mem_range.mp hk
  omega

/-- Witness for C8: the name `6` created by the second run is not among the
five files `0..4` of the first run. -/
theorem C8_witness : 6 ∈ staging_names 5 3 ∧ 6 ∉ List.range 5 :=
  ⟨by decide, (C8_staging_files_append 5 3 6).1 (by decide)⟩

end TSPSpec
